import Mathlib

/-!
Verification of the talkadvantage streaming transcription & analysis
pipeline and of the pure UI helper functions.

The UI helpers (calendar generation, the curiosity-engine answer
submission, the library search filter) are embedded directly from the
TypeScript sources.  The pipeline components (TranscriptAssembler,
AnalysisScheduler, ChunkBuffer, TranscriptionLink, TriggerDetector) are
not present in the shipped sources (the web demo only simulates them),
so they are modelled from the specification text and verified against
the stated properties of the specification.
-/

/-! ## TranscriptAssembler (spec §4.3, §3)

Modelled from the spec: the TranscriptAssembler component is missing
from the sources (the demo `LiveTranscript` only appends canned text),
so `ingest` is modelled from §4.3: a result message carries
{segment_id, text, is_final}; a partial message replaces the prior
partial text for its segment; a final message is appended to the
immutable log exactly once and subsequent messages with that id are
ignored; the Transcript is an append-only log of final segments plus at
most one trailing mutable partial segment. -/

structure ResultMessage where
  segment_id : Nat
  text : String
  is_final : Bool
deriving DecidableEq

structure Assembler where
  /-- final segments in commit order, as (segment_id, text) -/
  committed : List (Nat × String)
  /-- the at-most-one trailing mutable partial segment -/
  pending : Option (Nat × String)
deriving DecidableEq

def Assembler.empty : Assembler := ⟨[], none⟩

def committedIds (s : Assembler) : List Nat := s.committed.map Prod.fst

def ingest (s : Assembler) (m : ResultMessage) : Assembler :=
  if (committedIds s).contains m.segment_id then
    -- id already finalized: every later message with this id is ignored
    s
  else if m.is_final then
    { committed := s.committed ++ [(m.segment_id, m.text)],
      pending :=
        match s.pending with
        | some p => if p.fst = m.segment_id then none else s.pending
        | none => none }
  else
    -- a partial replaces whatever partial was visible before
    { s with pending := some (m.segment_id, m.text) }

def ingestList (s : Assembler) (ms : List ResultMessage) : Assembler :=
  ms.foldl ingest s

/-- Concatenation of the committed (final) segments' text, in order. -/
def committedText (s : Assembler) : String :=
  s.committed.foldl (fun acc p => acc ++ p.snd) ""

/-- The partial text currently visible for a segment id. -/
def visibleText (s : Assembler) (i : Nat) : Option String :=
  match s.pending with
  | some p => if p.fst = i then some p.snd else none
  | none => none

lemma ingest_committed_eq_or_append (s : Assembler) (m : ResultMessage) :
    (ingest s m).committed = s.committed ∨
      (ingest s m).committed = s.committed ++ [(m.segment_id, m.text)] := by
  by_cases h : m.segment_id ∈ committedIds s <;> by_cases hf : m.is_final <;>
    simp [ingest, h, hf]

lemma ingest_committed_extends (s : Assembler) (m : ResultMessage) :
    s.committed <+: (ingest s m).committed := by
  rcases ingest_committed_eq_or_append s m with h | h
  · rw [h]
  · rw [h]; exact ⟨[(m.segment_id, m.text)], rfl⟩

lemma ingestList_committed_extends (ms : List ResultMessage) (s : Assembler) :
    s.committed <+: (ingestList s ms).committed := by
  induction ms generalizing s with
  | nil => simp [ingestList]
  | cons m rest ih =>
    have h1 := ingest_committed_extends s m
    have h2 := ih (ingest s m)
    exact h1.trans h2

lemma foldl_append_acc (l : List (Nat × String)) (acc : String) :
    l.foldl (fun a p => a ++ p.snd) acc =
      acc ++ l.foldl (fun a p => a ++ p.snd) "" := by
  induction l generalizing acc with
  | nil => simp
  | cons x xs ih =>
    simp only [List.foldl_cons]
    rw [ih (acc ++ x.snd), ih ("" ++ x.snd)]
    simp [String.append_assoc]

lemma committedText_of_append (c r : List (Nat × String)) (p : Option (Nat × String))
    (q : Option (Nat × String)) :
    committedText ⟨c ++ r, p⟩ =
      committedText ⟨c, q⟩ ++ r.foldl (fun a x => a ++ x.snd) "" := by
  unfold committedText
  simp only [List.foldl_append]
  rw [foldl_append_acc]

/-- C2: the transcript is monotonic.  The committed log at any later
point extends the committed log at any earlier point (final segments'
text is never rewritten), hence the committed transcript text at any
earlier point is a prefix of the committed transcript text at any later
point; only the trailing partial is replaced. -/
theorem transcript_monotonic (s : Assembler) (ms : List ResultMessage) :
    s.committed <+: (ingestList s ms).committed ∧
      ∃ t : String, committedText (ingestList s ms) = committedText s ++ t := by
  refine ⟨ingestList_committed_extends ms s, ?_⟩
  rcases ingestList_committed_extends ms s with ⟨r, hr⟩
  refine ⟨r.foldl (fun a x => a ++ x.snd) "", ?_⟩
  have h1 : committedText (ingestList s ms) =
      committedText ⟨s.committed ++ r, (ingestList s ms).pending⟩ := by
    rw [hr]
  rw [h1, committedText_of_append s.committed r (ingestList s ms).pending s.pending]

/-- C3: per-segment-id semantics of `ingest`.  A later partial message
replaces (never appends to) the previously visible partial text for its
id; a final message for an uncommitted id is appended to the committed
log and afterwards that id occurs exactly once in the log; re-ingesting
the same final message for an already-committed id leaves the state
identical to ingesting it once. -/
theorem segment_id_semantics (s : Assembler) (i : Nat) (t t' tf : String) :
    (visibleText s i = some t → i ∉ committedIds s →
      visibleText (ingest s ⟨i, t', false⟩) i = some t') ∧
    (i ∉ committedIds s →
      (ingest s ⟨i, tf, true⟩).committed = s.committed ++ [(i, tf)] ∧
        (committedIds (ingest s ⟨i, tf, true⟩)).count i = 1) ∧
    ingest (ingest s ⟨i, tf, true⟩) ⟨i, tf, true⟩ = ingest s ⟨i, tf, true⟩ := by
  have ingest_of_committed : ∀ (s' : Assembler) (m : ResultMessage),
      m.segment_id ∈ committedIds s' → ingest s' m = s' := by
    intro s' m h
    simp [ingest, h]
  refine ⟨?_, ?_, ?_⟩
  · intro h1 h2
    simp [ingest, h2, visibleText]
  · intro h2
    have hcom : (ingest s ⟨i, tf, true⟩).committed = s.committed ++ [(i, tf)] := by
      simp [ingest, h2]
    refine ⟨hcom, ?_⟩
    have hids : committedIds (ingest s ⟨i, tf, true⟩) = committedIds s ++ [i] := by
      simp [committedIds, hcom]
    rw [hids, List.count_append]
    have h0 : (committedIds s).count i = 0 := List.count_eq_zero_of_not_mem h2
    simp [h0]
  · by_cases hc : i ∈ committedIds s
    · rw [ingest_of_committed s ⟨i, tf, true⟩ hc, ingest_of_committed s ⟨i, tf, true⟩ hc]
    · have hcom : (ingest s ⟨i, tf, true⟩).committed = s.committed ++ [(i, tf)] := by
        simp [ingest, hc]
      have hmem : i ∈ committedIds (ingest s ⟨i, tf, true⟩) := by
        simp [committedIds, hcom]
      exact ingest_of_committed _ _ hmem

theorem segment_id_semantics_witness :
    visibleText (ingest ⟨[(5, "a")], some (7, "par")⟩ ⟨7, "new", false⟩) 7 = some "new" ∧
    ((ingest ⟨[(5, "a")], some (7, "par")⟩ ⟨7, "fin", true⟩).committed =
        (⟨[(5, "a")], some (7, "par")⟩ : Assembler).committed ++ [(7, "fin")] ∧
      (committedIds (ingest ⟨[(5, "a")], some (7, "par")⟩ ⟨7, "fin", true⟩)).count 7 = 1) ∧
    ingest (ingest ⟨[(5, "a")], some (7, "par")⟩ ⟨7, "fin", true⟩) ⟨7, "fin", true⟩ =
      ingest ⟨[(5, "a")], some (7, "par")⟩ ⟨7, "fin", true⟩ := by
  have h := segment_id_semantics ⟨[(5, "a")], some (7, "par")⟩ 7 "par" "new" "fin"
  exact ⟨h.1 (by decide) (by decide), h.2.1 (by decide), h.2.2⟩

/-! ## AnalysisScheduler (spec §4.5)

Modelled from the spec: the AnalysisScheduler is missing from the
sources (the demo `simulateAIInsights` only appends canned insights on a
timer), so the scheduling discipline is modelled from §4.5: when a
boundary condition fires and nothing is in flight, a fresh window is
submitted; while a request is awaiting its result a new boundary firing
queues the fresh window (at most one pending) and marks the previously
queued window superseded; a completed in-flight request is delivered and
the queued window, if any, is immediately submitted; results for
non-in-flight (superseded) windows are discarded. -/

inductive SchedEvent where
  | fire : SchedEvent
  | complete : Nat → SchedEvent
deriving DecidableEq

structure Scheduler where
  /-- window ids submitted and awaiting their result -/
  inflight : List Nat
  /-- the at-most-one queued window -/
  queued : Option Nat
  /-- window ids marked superseded -/
  superseded : List Nat
  /-- results delivered to the session, in order -/
  delivered : List Nat
  /-- next fresh window id -/
  nextId : Nat
deriving DecidableEq

def Scheduler.init : Scheduler := ⟨[], none, [], [], 0⟩

def schedStep (s : Scheduler) (e : SchedEvent) : Scheduler :=
  match e with
  | .fire =>
    if s.inflight.isEmpty then
      { s with inflight := [s.nextId], nextId := s.nextId + 1 }
    else
      { s with queued := some s.nextId,
               superseded := s.superseded ++ s.queued.toList,
               nextId := s.nextId + 1 }
  | .complete i =>
    if s.inflight.contains i then
      { s with delivered := s.delivered ++ [i],
               inflight := s.queued.toList,
               queued := none }
    else
      s

def schedRun (es : List SchedEvent) : Scheduler := es.foldl schedStep .init

structure SchedInv (s : Scheduler) : Prop where
  inflight_len : s.inflight.length ≤ 1
  inflight_lt : ∀ i ∈ s.inflight, i < s.nextId
  queued_lt : ∀ q, s.queued = some q → q < s.nextId
  sup_lt : ∀ w ∈ s.superseded, w < s.nextId
  delivered_lt : ∀ d ∈ s.delivered, d < s.nextId
  queued_not_inflight : ∀ q, s.queued = some q → q ∉ s.inflight
  queued_not_delivered : ∀ q, s.queued = some q → q ∉ s.delivered
  sup_not_inflight : ∀ w ∈ s.superseded, w ∉ s.inflight
  sup_not_queued : ∀ w ∈ s.superseded, s.queued ≠ some w
  sup_not_delivered : ∀ w ∈ s.superseded, w ∉ s.delivered

lemma schedInv_init : SchedInv Scheduler.init := by
  constructor <;> simp [Scheduler.init]

lemma schedInv_step (s : Scheduler) (e : SchedEvent) (h : SchedInv s) :
    SchedInv (schedStep s e) := by
  cases e with
  | fire =>
    by_cases hin : s.inflight.isEmpty
    · simp only [schedStep]
      rw [if_pos hin]
      refine ⟨by simp, ?_, ?_, ?_, ?_, ?_, ?_, ?_, ?_, ?_⟩
      · dsimp only
        intro i hi
        simp only [List.mem_singleton] at hi
        omega
      · dsimp only
        intro q hq
        have := h.queued_lt q hq
        omega
      · dsimp only
        intro w hw
        have := h.sup_lt w hw
        omega
      · dsimp only
        intro d hd
        have := h.delivered_lt d hd
        omega
      · dsimp only
        intro q hq hmem
        simp only [List.mem_singleton] at hmem
        have := h.queued_lt q hq
        omega
      · dsimp only
        intro q hq
        exact h.queued_not_delivered q hq
      · dsimp only
        intro w hw hmem
        simp only [List.mem_singleton] at hmem
        have := h.sup_lt w hw
        omega
      · dsimp only
        intro w hw
        exact h.sup_not_queued w hw
      · dsimp only
        intro w hw
        exact h.sup_not_delivered w hw
    · simp only [schedStep]
      rw [if_neg hin]
      refine ⟨h.inflight_len, ?_, ?_, ?_, ?_, ?_, ?_, ?_, ?_, ?_⟩
      · dsimp only
        intro i hi
        have := h.inflight_lt i hi
        omega
      · dsimp only
        intro q hq
        simp only [Option.some.injEq] at hq
        omega
      · dsimp only
        intro w hw
        rcases List.mem_append.mp hw with hw | hw
        · have := h.sup_lt w hw
          omega
        · cases hq : s.queued with
          | none => rw [hq] at hw; simp at hw
          | some q =>
            rw [hq] at hw
            simp only [Option.toList_some, List.mem_singleton] at hw
            subst hw
            have := h.queued_lt w hq
            omega
      · dsimp only
        intro d hd
        have := h.delivered_lt d hd
        omega
      · dsimp only
        intro q hq hmem
        simp only [Option.some.injEq] at hq
        subst hq
        have := h.inflight_lt _ hmem
        omega
      · dsimp only
        intro q hq hmem
        simp only [Option.some.injEq] at hq
        subst hq
        have := h.delivered_lt _ hmem
        omega
      · dsimp only
        intro w hw
        rcases List.mem_append.mp hw with hw | hw
        · exact h.sup_not_inflight w hw
        · cases hq : s.queued with
          | none => rw [hq] at hw; simp at hw
          | some q =>
            rw [hq] at hw
            simp only [Option.toList_some, List.mem_singleton] at hw
            subst hw
            exact h.queued_not_inflight w hq
      · dsimp only
        intro w hw heq
        simp only [Option.some.injEq] at heq
        rcases List.mem_append.mp hw with hw | hw
        · have := h.sup_lt w hw
          omega
        · cases hq : s.queued with
          | none => rw [hq] at hw; simp at hw
          | some q =>
            rw [hq] at hw
            simp only [Option.toList_some, List.mem_singleton] at hw
            subst hw
            have := h.queued_lt w hq
            omega
      · dsimp only
        intro w hw
        rcases List.mem_append.mp hw with hw | hw
        · exact h.sup_not_delivered w hw
        · cases hq : s.queued with
          | none => rw [hq] at hw; simp at hw
          | some q =>
            rw [hq] at hw
            simp only [Option.toList_some, List.mem_singleton] at hw
            subst hw
            exact h.queued_not_delivered w hq
  | complete i =>
    by_cases hc : s.inflight.contains i
    · have hi : i ∈ s.inflight := by simpa using hc
      simp only [schedStep]
      rw [if_pos hc]
      refine ⟨?_, ?_, ?_, h.sup_lt, ?_, ?_, ?_, ?_, ?_, ?_⟩
      · dsimp only
        cases s.queued <;> simp
      · dsimp only
        intro j hj
        cases hq : s.queued with
        | none => rw [hq] at hj; simp at hj
        | some q =>
          rw [hq] at hj
          simp only [Option.toList_some, List.mem_singleton] at hj
          subst hj
          exact h.queued_lt j hq
      · dsimp only
        intro q hq
        simp at hq
      · dsimp only
        intro d hd
        rcases List.mem_append.mp hd with hd | hd
        · exact h.delivered_lt d hd
        · simp only [List.mem_singleton] at hd
          subst hd
          exact h.inflight_lt d hi
      · dsimp only
        intro q hq
        simp at hq
      · dsimp only
        intro q hq
        simp at hq
      · dsimp only
        intro w hw hmem
        cases hq : s.queued with
        | none => rw [hq] at hmem; simp at hmem
        | some q =>
          rw [hq] at hmem
          simp only [Option.toList_some, List.mem_singleton] at hmem
          subst hmem
          exact h.sup_not_queued w hw hq
      · dsimp only
        intro w hw
        simp
      · dsimp only
        intro w hw hmem
        rcases List.mem_append.mp hmem with hm | hm
        · exact h.sup_not_delivered w hw hm
        · simp only [List.mem_singleton] at hm
          subst hm
          exact h.sup_not_inflight w hw hi
    · simp only [schedStep]
      rw [if_neg hc]
      exact h

lemma schedInv_foldl (es : List SchedEvent) :
    ∀ s : Scheduler, SchedInv s → SchedInv (List.foldl schedStep s es) := by
  induction es with
  | nil => intro s h; simpa using h
  | cons e rest ih =>
    intro s h
    simpa using ih (schedStep s e) (schedInv_step s e h)

lemma sched_sup_mono_step (s : Scheduler) (e : SchedEvent) :
    s.superseded ⊆ (schedStep s e).superseded := by
  cases e with
  | fire =>
    by_cases hin : s.inflight.isEmpty
    · simp only [schedStep]
      rw [if_pos hin]
      exact fun x hx => hx
    · simp only [schedStep]
      rw [if_neg hin]
      exact List.subset_append_left _ _
  | complete i =>
    by_cases hc : s.inflight.contains i
    · simp only [schedStep]
      rw [if_pos hc]
      exact fun x hx => hx
    · simp only [schedStep]
      rw [if_neg hc]
      exact fun x hx => hx

lemma sched_sup_mono_foldl (L : List SchedEvent) :
    ∀ s : Scheduler, s.superseded ⊆ (List.foldl schedStep s L).superseded := by
  induction L with
  | nil => intro s; simp
  | cons e rest ih =>
    intro s
    simp only [List.foldl_cons]
    exact fun x hx => ih (schedStep s e) (sched_sup_mono_step s e hx)

lemma sched_sup_never_delivered (es : List SchedEvent) :
    ∀ (s : Scheduler) (w : Nat), SchedInv s → w ∈ s.superseded →
      w ∉ (List.foldl schedStep s es).delivered := by
  induction es with
  | nil =>
    intro s w h hw
    simpa using h.sup_not_delivered w hw
  | cons e rest ih =>
    intro s w h hw
    simpa using ih (schedStep s e) w (schedInv_step s e h)
      (sched_sup_mono_step s e hw)

lemma sched_fire_burst (n : Nat) :
    ∀ (s : Scheduler) (a : Nat), s.inflight = [a] →
      (List.foldl schedStep s (List.replicate (n + 1) .fire)).inflight = [a] ∧
      (List.foldl schedStep s (List.replicate (n + 1) .fire)).queued =
        some (s.nextId + n) ∧
      (List.foldl schedStep s (List.replicate (n + 1) .fire)).nextId =
        s.nextId + n + 1 ∧
      (∀ k < n, s.nextId + k ∈
        (List.foldl schedStep s (List.replicate (n + 1) .fire)).superseded) ∧
      (∀ q, s.queued = some q → q ∈
        (List.foldl schedStep s (List.replicate (n + 1) .fire)).superseded) ∧
      (List.foldl schedStep s (List.replicate (n + 1) .fire)).delivered =
        s.delivered := by
  induction n with
  | zero =>
    intro s a ha
    have hne : ¬ s.inflight.isEmpty := by
      rw [ha]; simp
    simp only [List.replicate, List.foldl_cons, List.foldl_nil]
    simp only [schedStep]
    rw [if_neg hne]
    refine ⟨ha, by simp, by simp, by omega, ?_, rfl⟩
    intro q hq
    rw [hq]
    simp
  | succ n ih =>
    intro s a ha
    have hne : ¬ s.inflight.isEmpty := by
      rw [ha]; simp
    have hrep : List.replicate (n + 2) SchedEvent.fire =
        SchedEvent.fire :: List.replicate (n + 1) SchedEvent.fire := rfl
    rw [hrep]
    simp only [List.foldl_cons]
    have hstep : schedStep s .fire =
        { s with queued := some s.nextId,
                 superseded := s.superseded ++ s.queued.toList,
                 nextId := s.nextId + 1 } := by
      simp only [schedStep]
      rw [if_neg hne]
    rw [hstep]
    obtain ⟨h1, h2, h3, h4, h5, h6⟩ :=
      ih { s with queued := some s.nextId,
                  superseded := s.superseded ++ s.queued.toList,
                  nextId := s.nextId + 1 } a ha
    refine ⟨h1, ?_, ?_, ?_, ?_, h6⟩
    · rw [h2]
      dsimp only
      congr 1
      omega
    · rw [h3]
      dsimp only
      omega
    · intro k hk
      rcases Nat.eq_zero_or_pos k with hk0 | hkpos
      · subst hk0
        have := h5 s.nextId rfl
        simpa using this
      · obtain ⟨k', rfl⟩ := Nat.exists_eq_add_of_lt hkpos
        have hk' : k' < n := by omega
        have := h4 k' hk'
        dsimp only at this
        have heq : s.nextId + 1 + k' = s.nextId + (0 + k' + 1) := by omega
        rwa [heq] at this
    · intro q hq
      -- q is superseded by the first fire of the burst, and superseded
      -- sets only grow along the run
      refine sched_sup_mono_foldl _ _ ?_
      dsimp only
      rw [hq]
      simp

/-- C1: at most one analysis request is in flight per session at any
instant; a window marked superseded is never delivered, however the run
continues; and when n+1 boundary conditions fire while a request is
awaiting its result, only the most recently queued window survives (the
earlier ones are superseded) and it is the window submitted when the
in-flight request completes. -/
theorem scheduler_single_inflight (es : List SchedEvent) (n : Nat) (a : Nat) :
    (schedRun es).inflight.length ≤ 1 ∧
    (∀ w ∈ (schedRun es).superseded, ∀ es',
      w ∉ (schedRun (es ++ es')).delivered) ∧
    ((schedRun es).inflight = [a] →
      (schedRun (es ++ List.replicate (n + 1) .fire)).queued =
          some ((schedRun es).nextId + n) ∧
        (∀ k < n, (schedRun es).nextId + k ∈
          (schedRun (es ++ List.replicate (n + 1) .fire)).superseded) ∧
        (∀ q, (schedRun es).queued = some q → q ∈
          (schedRun (es ++ List.replicate (n + 1) .fire)).superseded) ∧
        (schedStep (schedRun (es ++ List.replicate (n + 1) .fire))
            (.complete a)).delivered = (schedRun es).delivered ++ [a] ∧
        (schedStep (schedRun (es ++ List.replicate (n + 1) .fire))
            (.complete a)).inflight = [(schedRun es).nextId + n]) := by
  have hinv : SchedInv (schedRun es) :=
    schedInv_foldl es Scheduler.init schedInv_init
  have happ : ∀ es', schedRun (es ++ es') =
      List.foldl schedStep (schedRun es) es' := by
    intro es'
    simp [schedRun, List.foldl_append]
  refine ⟨hinv.inflight_len, ?_, ?_⟩
  · intro w hw es'
    rw [happ es']
    exact sched_sup_never_delivered es' (schedRun es) w hinv hw
  · intro ha
    obtain ⟨h1, h2, h3, h4, h5, h6⟩ :=
      sched_fire_burst n (schedRun es) a ha
    rw [happ (List.replicate (n + 1) .fire)]
    have hcontains :
        (List.foldl schedStep (schedRun es)
          (List.replicate (n + 1) SchedEvent.fire)).inflight.contains a := by
      rw [h1]; simp
    have hstep : schedStep
        (List.foldl schedStep (schedRun es)
          (List.replicate (n + 1) SchedEvent.fire)) (.complete a) =
        { List.foldl schedStep (schedRun es)
            (List.replicate (n + 1) SchedEvent.fire) with
          delivered := (List.foldl schedStep (schedRun es)
            (List.replicate (n + 1) SchedEvent.fire)).delivered ++ [a],
          inflight := (List.foldl schedStep (schedRun es)
            (List.replicate (n + 1) SchedEvent.fire)).queued.toList,
          queued := none } := by
      simp only [schedStep]
      rw [if_pos hcontains]
    refine ⟨h2, h4, h5, ?_, ?_⟩
    · rw [hstep]
      dsimp only
      rw [h6]
    · rw [hstep]
      dsimp only
      rw [h2]
      simp

theorem scheduler_single_inflight_witness :
    (schedRun [.fire, .fire, .fire]).inflight.length ≤ 1 ∧
    (1 ∉ (schedRun ([.fire, .fire, .fire] ++ [.complete 1])).delivered) ∧
    (schedRun ([.fire, .fire, .fire] ++ List.replicate 2 .fire)).queued =
        some ((schedRun [.fire, .fire, .fire]).nextId + 1) ∧
    ((schedRun [.fire, .fire, .fire]).nextId + 0 ∈
      (schedRun ([.fire, .fire, .fire] ++ List.replicate 2 .fire)).superseded) ∧
    (2 ∈ (schedRun ([.fire, .fire, .fire] ++ List.replicate 2 .fire)).superseded) ∧
    (schedStep (schedRun ([.fire, .fire, .fire] ++ List.replicate 2 .fire))
        (.complete 0)).delivered = (schedRun [.fire, .fire, .fire]).delivered ++ [0] ∧
    (schedStep (schedRun ([.fire, .fire, .fire] ++ List.replicate 2 .fire))
        (.complete 0)).inflight = [(schedRun [.fire, .fire, .fire]).nextId + 1] := by
  have h := scheduler_single_inflight [.fire, .fire, .fire] 1 0
  obtain ⟨hq, hk, hqs, hd, hi⟩ := h.2.2 (by decide)
  exact ⟨h.1, h.2.1 1 (by decide) [.complete 1], hq, hk 0 (by decide),
    hqs 2 (by decide), hd, hi⟩

/-! ## ChunkBuffer (spec §4.1)

Modelled from the spec: the ChunkBuffer is absent from src/ (the demo
`startRecording` only pushes MediaRecorder blobs into an unbounded
array), so it is modelled from §4.1: undrained chunks stay queued up to
a bounded capacity; beyond that the oldest chunk is dropped and a
backpressure-overflow event is raised.  Chunks are identified by their
capture sequence index. -/

structure ChunkBuffer where
  /-- undrained chunks, oldest first -/
  queue : List Nat
  /-- configured bounded capacity (number of queued chunks) -/
  capacity : Nat
  /-- backpressure-overflow events raised so far -/
  overflowEvents : Nat
  /-- chunks dropped on overflow, oldest first -/
  dropped : List Nat
deriving DecidableEq

def ChunkBuffer.push (b : ChunkBuffer) (c : Nat) : ChunkBuffer :=
  if (b.queue ++ [c]).length ≤ b.capacity then
    { b with queue := b.queue ++ [c] }
  else
    { b with queue := (b.queue ++ [c]).drop 1,
             overflowEvents := b.overflowEvents + 1,
             dropped := b.dropped ++ (b.queue ++ [c]).take 1 }

def ChunkBuffer.pushAll (b : ChunkBuffer) (cs : List Nat) : ChunkBuffer :=
  cs.foldl ChunkBuffer.push b

lemma chunkBuffer_push_capacity (b : ChunkBuffer) (c : Nat) :
    (b.push c).capacity = b.capacity := by
  unfold ChunkBuffer.push
  split <;> rfl

lemma chunkBuffer_push_len (b : ChunkBuffer) (c : Nat)
    (h : b.queue.length ≤ b.capacity) :
    (b.push c).queue.length ≤ b.capacity := by
  unfold ChunkBuffer.push
  split <;> rename_i hle
  · simpa using hle
  · simp only [List.length_drop, List.length_append, List.length_singleton]
    omega

lemma chunkBuffer_pushAll_len (cs : List Nat) :
    ∀ b : ChunkBuffer, b.queue.length ≤ b.capacity →
      (b.pushAll cs).queue.length ≤ (b.pushAll cs).capacity := by
  induction cs with
  | nil => intro b h; simpa [ChunkBuffer.pushAll] using h
  | cons c rest ih =>
    intro b h
    have h1 := chunkBuffer_push_len b c h
    have := ih (b.push c) (by rw [chunkBuffer_push_capacity]; exact h1)
    simpa [ChunkBuffer.pushAll] using this

lemma chunkBuffer_drop_signalled (cs : List Nat) :
    ∀ b : ChunkBuffer,
      (b.pushAll cs).overflowEvents + b.dropped.length =
        (b.pushAll cs).dropped.length + b.overflowEvents := by
  induction cs with
  | nil => intro b; simp [ChunkBuffer.pushAll]; omega
  | cons c rest ih =>
    intro b
    have := ih (b.push c)
    have hone : (b.push c).overflowEvents + b.dropped.length =
        (b.push c).dropped.length + b.overflowEvents := by
      unfold ChunkBuffer.push
      split
      · dsimp only
        omega
      · dsimp only
        simp only [List.length_append, List.length_take, List.length_singleton]
        omega
    simp only [ChunkBuffer.pushAll, List.foldl_cons] at *
    omega

/-- C5: the ChunkBuffer never exceeds its configured capacity: a push
within capacity just appends (chunks remain queued, no event); a push
that would exceed capacity drops exactly the oldest queued chunk and
raises a backpressure-overflow event; whatever the push sequence, the
queue length stays bounded by the capacity and every dropped chunk is
matched by an overflow event (never silently truncated). -/
theorem chunkBuffer_bounded_backpressure (b : ChunkBuffer) (c : Nat)
    (cs : List Nat) :
    (b.queue.length < b.capacity →
      (b.push c).queue = b.queue ++ [c] ∧
      (b.push c).overflowEvents = b.overflowEvents ∧
      (b.push c).dropped = b.dropped) ∧
    (b.queue.length = b.capacity → 0 < b.capacity →
      (b.push c).queue = b.queue.drop 1 ++ [c] ∧
      (b.push c).overflowEvents = b.overflowEvents + 1 ∧
      (b.push c).dropped = b.dropped ++ b.queue.take 1) ∧
    (b.queue.length ≤ b.capacity →
      (b.pushAll cs).queue.length ≤ (b.pushAll cs).capacity) ∧
    (b.pushAll cs).overflowEvents + b.dropped.length =
      (b.pushAll cs).dropped.length + b.overflowEvents := by
  refine ⟨?_, ?_, fun h => chunkBuffer_pushAll_len cs b h,
    chunkBuffer_drop_signalled cs b⟩
  · intro h
    have hle : (b.queue ++ [c]).length ≤ b.capacity := by
      simp only [List.length_append, List.length_singleton]
      omega
    unfold ChunkBuffer.push
    rw [if_pos hle]
    exact ⟨rfl, rfl, rfl⟩
  · intro h hpos
    have hgt : ¬ (b.queue ++ [c]).length ≤ b.capacity := by
      simp only [List.length_append, List.length_singleton]
      omega
    have hnempty : 1 ≤ b.queue.length := by omega
    unfold ChunkBuffer.push
    rw [if_neg hgt]
    refine ⟨?_, rfl, ?_⟩
    · dsimp only
      rw [List.drop_append_of_le_length hnempty]
    · dsimp only
      rw [List.take_append_of_le_length hnempty]

theorem chunkBuffer_bounded_backpressure_witness :
    ((⟨[7], 2, 0, []⟩ : ChunkBuffer).push 8).queue = [7] ++ [8] ∧
    ((⟨[7], 2, 0, []⟩ : ChunkBuffer).push 8).overflowEvents = 0 ∧
    ((⟨[7], 2, 0, []⟩ : ChunkBuffer).push 8).dropped = [] ∧
    ((⟨[7, 8], 2, 0, []⟩ : ChunkBuffer).push 9).queue = [7, 8].drop 1 ++ [9] ∧
    ((⟨[7, 8], 2, 0, []⟩ : ChunkBuffer).push 9).overflowEvents = 0 + 1 ∧
    ((⟨[7, 8], 2, 0, []⟩ : ChunkBuffer).push 9).dropped = [] ++ [7, 8].take 1 ∧
    ((⟨[7], 2, 0, []⟩ : ChunkBuffer).pushAll [8, 9, 10]).queue.length ≤
      ((⟨[7], 2, 0, []⟩ : ChunkBuffer).pushAll [8, 9, 10]).capacity := by
  have h1 := chunkBuffer_bounded_backpressure (⟨[7], 2, 0, []⟩ : ChunkBuffer) 8 [8, 9, 10]
  have h2 := chunkBuffer_bounded_backpressure (⟨[7, 8], 2, 0, []⟩ : ChunkBuffer) 9 []
  obtain ⟨ha, hb, hc⟩ := h1.1 (by decide)
  obtain ⟨hd, he, hf⟩ := h2.2.1 (by decide) (by decide)
  exact ⟨ha, hb, hc, hd, he, hf, h1.2.2.1 (by decide)⟩

/-! ## Chunk ordering across the TranscriptionLink (spec §4.1, §4.2, §5)

Modelled from the spec: the TranscriptionLink is absent from src/ (the
demo records into a local array and never streams), so the send path is
modelled from §4.2/§5: while `Streaming` the link consumes chunks from
the ChunkBuffer in strict order and writes them to the channel; a
transport failure moves the link to `Reconnecting` (capture keeps
accumulating, bounded per §4.1); a successful reconnect resumes
streaming from the next undrained chunk.  Chunks carry their capture
sequence index. -/

inductive ConnState where
  | Disconnected
  | Connecting
  | Streaming
  | Reconnecting
  | Closed
deriving DecidableEq

structure LinkSystem where
  buffer : ChunkBuffer
  /-- chunks written to the channel, in send order -/
  sent : List Nat
  conn : ConnState
  /-- index of the next chunk the AudioSource will capture -/
  nextCapture : Nat
deriving DecidableEq

inductive LinkEvent where
  /-- the AudioSource produces the next fixed-duration chunk -/
  | capture
  /-- the link consumes the next undrained chunk (only while Streaming) -/
  | drain
  /-- transport-level failure while Streaming -/
  | fail
  /-- successful reconnect -/
  | reconnected
deriving DecidableEq

def linkStep (s : LinkSystem) (e : LinkEvent) : LinkSystem :=
  match e with
  | .capture =>
    { s with buffer := s.buffer.push s.nextCapture,
             nextCapture := s.nextCapture + 1 }
  | .drain =>
    match s.conn, s.buffer.queue with
    | .Streaming, c :: rest =>
      { s with sent := s.sent ++ [c],
               buffer := { s.buffer with queue := rest } }
    | _, _ => s
  | .fail =>
    match s.conn with
    | .Streaming => { s with conn := .Reconnecting }
    | _ => s
  | .reconnected =>
    match s.conn with
    | .Reconnecting => { s with conn := .Streaming }
    | _ => s

def LinkSystem.init (cap : Nat) : LinkSystem :=
  ⟨⟨[], cap, 0, []⟩, [], .Streaming, 0⟩

def linkRun (cap : Nat) (es : List LinkEvent) : LinkSystem :=
  es.foldl linkStep (LinkSystem.init cap)

def LinkInv (s : LinkSystem) : Prop :=
  List.Sorted (· < ·) (s.sent ++ s.buffer.queue) ∧
    ∀ x ∈ s.sent ++ s.buffer.queue, x < s.nextCapture

lemma linkInv_init (cap : Nat) : LinkInv (LinkSystem.init cap) := by
  constructor <;> simp [LinkSystem.init]

lemma push_queue_sublist (b : ChunkBuffer) (c : Nat) :
    (b.push c).queue.Sublist (b.queue ++ [c]) := by
  unfold ChunkBuffer.push
  split
  · dsimp only
    exact List.Sublist.refl _
  · dsimp only
    exact List.drop_sublist 1 (b.queue ++ [c])

lemma linkInv_step (s : LinkSystem) (e : LinkEvent) (h : LinkInv s) :
    LinkInv (linkStep s e) := by
  obtain ⟨hsorted, hlt⟩ := h
  cases e with
  | capture =>
    have hall : List.Sorted (· < ·) (s.sent ++ s.buffer.queue ++ [s.nextCapture]) := by
      refine List.pairwise_append.mpr ⟨hsorted, List.sorted_singleton _, ?_⟩
      intro x hx y hy
      simp only [List.mem_singleton] at hy
      subst hy
      exact hlt x hx
    have hsub : (s.sent ++ (s.buffer.push s.nextCapture).queue).Sublist
        (s.sent ++ s.buffer.queue ++ [s.nextCapture]) := by
      rw [List.append_assoc]
      exact (push_queue_sublist s.buffer s.nextCapture).append_left s.sent
    refine ⟨?_, ?_⟩
    · dsimp only [linkStep]
      exact hall.sublist hsub
    · dsimp only [linkStep]
      intro x hx
      have hx' : x ∈ s.sent ++ s.buffer.queue ++ [s.nextCapture] := hsub.mem hx
      simp only [List.mem_append, List.mem_singleton] at hx'
      rcases hx' with (hx' | hx') | hx'
      · have := hlt x (List.mem_append.mpr (Or.inl hx'))
        omega
      · have := hlt x (List.mem_append.mpr (Or.inr hx'))
        omega
      · omega
  | drain =>
    cases hc : s.conn with
    | Streaming =>
      cases hq : s.buffer.queue with
      | nil =>
        simp only [linkStep, hc, hq]
        exact ⟨hsorted, hlt⟩
      | cons c rest =>
        simp only [linkStep, hc, hq]
        rw [hq] at hsorted hlt
        have heq : (s.sent ++ [c]) ++ rest = s.sent ++ (c :: rest) := by simp
        refine ⟨?_, ?_⟩
        · dsimp only
          rw [heq]
          exact hsorted
        · dsimp only
          intro x hx
          rw [heq] at hx
          exact hlt x hx
    | Disconnected => simp only [linkStep, hc]; exact ⟨hsorted, hlt⟩
    | Connecting => simp only [linkStep, hc]; exact ⟨hsorted, hlt⟩
    | Reconnecting => simp only [linkStep, hc]; exact ⟨hsorted, hlt⟩
    | Closed => simp only [linkStep, hc]; exact ⟨hsorted, hlt⟩
  | fail =>
    cases hc : s.conn <;> simp only [linkStep, hc] <;> exact ⟨hsorted, hlt⟩
  | reconnected =>
    cases hc : s.conn <;> simp only [linkStep, hc] <;> exact ⟨hsorted, hlt⟩

lemma linkInv_foldl (es : List LinkEvent) :
    ∀ s : LinkSystem, LinkInv s → LinkInv (List.foldl linkStep s es) := by
  induction es with
  | nil => intro s h; simpa using h
  | cons e rest ih =>
    intro s h
    simpa using ih (linkStep s e) (linkInv_step s e h)

/-- C4: the sequence of chunks sent to the transcription link is in
capture order (strictly increasing capture indices), with no chunk
duplicated and no chunk reordered, for every event interleaving —
including interleavings containing disconnect (`fail`) and `reconnected`
events. -/
theorem chunks_sent_in_capture_order (cap : Nat) (es : List LinkEvent) :
    List.Sorted (· < ·) (linkRun cap es).sent ∧
      (linkRun cap es).sent.Nodup := by
  have h := linkInv_foldl es (LinkSystem.init cap) (linkInv_init cap)
  have hsorted : List.Sorted (· < ·) (linkRun cap es).sent := by
    have h2 := (List.pairwise_append.mp h.1).1
    exact h2
  exact ⟨hsorted, hsorted.nodup⟩

/-! ## TranscriptionLink reconnect backoff (spec §4.2, §8)

Modelled from the spec: no reconnect logic exists in src/, so the retry
state machine is modelled from §4.2: on transport failure while
`Streaming` the link enters `Reconnecting` and begins exponential
backoff (base 1s, factor 2, cap 30s, jitter ±20%); reconnection attempts
are capped at 10, after which the link transitions to `Closed` and
surfaces a fatal `LinkLost` error.  Delays are in milliseconds; the
jitter is a percentage in [-20, 20] supplied with each failure event. -/

def reconnectCap : Nat := 10

def baseDelayMs (attempt : Nat) : Nat := min (1000 * 2 ^ attempt) 30000

def delayMs (attempt : Nat) (jitterPct : Int) : Int :=
  ((baseDelayMs attempt : Int) * (100 + jitterPct)) / 100

inductive LinkError where
  | LinkLost
deriving DecidableEq

structure BackoffLink where
  state : ConnState
  attempts : Nat
  /-- reconnect delays scheduled so far, in order (ms) -/
  delays : List Int
  /-- fatal errors surfaced to the session owner -/
  errors : List LinkError
deriving DecidableEq

inductive BackoffEvent where
  /-- a connect/reconnect attempt fails; the jitter percentage drawn for
  the next scheduled delay comes with the event -/
  | fail (jitterPct : Int)
  | connected
  | close
deriving DecidableEq

def backoffStep (l : BackoffLink) (e : BackoffEvent) : BackoffLink :=
  match e with
  | .fail j =>
    match l.state with
    | .Streaming =>
      { l with state := .Reconnecting, attempts := 1,
               delays := l.delays ++ [delayMs 0 j] }
    | .Reconnecting =>
      if l.attempts + 1 ≥ reconnectCap then
        { l with state := .Closed, attempts := l.attempts + 1,
                 errors := l.errors ++ [.LinkLost] }
      else
        { l with attempts := l.attempts + 1,
                 delays := l.delays ++ [delayMs l.attempts j] }
    | _ => l
  | .connected =>
    match l.state with
    | .Reconnecting => { l with state := .Streaming, attempts := 0 }
    | .Connecting => { l with state := .Streaming, attempts := 0 }
    | _ => l
  | .close => { l with state := .Closed }

def backoffRun (l : BackoffLink) (es : List BackoffEvent) : BackoffLink :=
  es.foldl backoffStep l

def streamingLink : BackoffLink := ⟨.Streaming, 0, [], []⟩

lemma backoffStep_closed (l : BackoffLink) (e : BackoffEvent)
    (h : l.state = .Closed) : backoffStep l e = l := by
  obtain ⟨st, a, D, E⟩ := l
  simp only at h
  subst h
  cases e with
  | fail j => rfl
  | connected => rfl
  | close => rfl

lemma backoffRun_closed (es : List BackoffEvent) :
    ∀ l : BackoffLink, l.state = .Closed → backoffRun l es = l := by
  induction es with
  | nil => intro l _; rfl
  | cons e rest ih =>
    intro l h
    simp only [backoffRun, List.foldl_cons]
    rw [backoffStep_closed l e h]
    exact ih l h

lemma backoff_fails_small (js : List Int) :
    ∀ (a : Nat) (D : List Int) (E : List LinkError), 1 ≤ a →
      a + js.length ≤ reconnectCap - 1 →
      List.foldl backoffStep ⟨.Reconnecting, a, D, E⟩ (js.map .fail) =
        ⟨.Reconnecting, a + js.length,
          D ++ List.zipWith delayMs (List.range' a js.length) js, E⟩ := by
  induction js with
  | nil =>
    intro a D E _ _
    simp
  | cons j rest ih =>
    intro a D E ha hsz
    simp only [List.length_cons] at hsz
    have hlt : ¬ a + 1 ≥ reconnectCap := by
      unfold reconnectCap at *
      omega
    simp only [List.map_cons, List.foldl_cons]
    have hstep : backoffStep ⟨.Reconnecting, a, D, E⟩ (.fail j) =
        ⟨.Reconnecting, a + 1, D ++ [delayMs a j], E⟩ := by
      simp only [backoffStep]
      rw [if_neg hlt]
    rw [hstep]
    rw [ih (a + 1) (D ++ [delayMs a j]) E (by omega) (by omega)]
    have hr : List.range' a (rest.length + 1) = a :: List.range' (a + 1) rest.length := by
      rw [List.range'_succ]
    rw [List.length_cons, hr]
    simp only [List.zipWith_cons_cons]
    rw [List.append_assoc]
    have : a + 1 + rest.length = a + (rest.length + 1) := by omega
    rw [this]
    rfl

lemma backoff_fails_big (js : List Int) :
    ∀ (a : Nat) (D : List Int) (E : List LinkError), 1 ≤ a →
      a ≤ reconnectCap - 1 → reconnectCap - 1 < a + js.length →
      List.foldl backoffStep ⟨.Reconnecting, a, D, E⟩ (js.map .fail) =
        ⟨.Closed, reconnectCap,
          D ++ List.zipWith delayMs (List.range' a (reconnectCap - 1 - a)) js,
          E ++ [.LinkLost]⟩ := by
  induction js with
  | nil =>
    intro a D E _ ha hsz
    simp only [List.length_nil] at hsz
    omega
  | cons j rest ih =>
    intro a D E h1 ha hsz
    simp only [List.length_cons] at hsz
    simp only [List.map_cons, List.foldl_cons]
    by_cases hcap : a + 1 ≥ reconnectCap
    · -- this is the tenth consecutive failure: close and surface LinkLost
      have ha9 : a = reconnectCap - 1 := by
        unfold reconnectCap at *
        omega
      have hstep : backoffStep ⟨.Reconnecting, a, D, E⟩ (.fail j) =
          ⟨.Closed, a + 1, D, E ++ [.LinkLost]⟩ := by
        simp only [backoffStep]
        rw [if_pos hcap]
      rw [hstep]
      have hclosed := backoffRun_closed (rest.map .fail)
        ⟨.Closed, a + 1, D, E ++ [.LinkLost]⟩ rfl
      simp only [backoffRun] at hclosed
      rw [hclosed]
      have hz : reconnectCap - 1 - a = 0 := by omega
      rw [hz]
      simp only [List.range'_zero, List.zipWith_nil_left, List.append_nil]
      have : a + 1 = reconnectCap := by
        unfold reconnectCap at *
        omega
      rw [this]
    · have hstep : backoffStep ⟨.Reconnecting, a, D, E⟩ (.fail j) =
          ⟨.Reconnecting, a + 1, D ++ [delayMs a j], E⟩ := by
        simp only [backoffStep]
        rw [if_neg hcap]
      rw [hstep]
      rw [ih (a + 1) (D ++ [delayMs a j]) E (by omega)
        (by unfold reconnectCap at *; omega) (by omega)]
      have hsub : reconnectCap - 1 - a = (reconnectCap - 1 - (a + 1)) + 1 := by
        unfold reconnectCap at *
        omega
      rw [hsub, List.range'_succ]
      simp only [List.zipWith_cons_cons]
      rw [List.append_assoc]
      rfl

lemma baseDelayMs_dvd (k : Nat) : 100 ∣ baseDelayMs k := by
  unfold baseDelayMs
  rcases min_cases (1000 * 2 ^ k) 30000 with ⟨h, _⟩ | ⟨h, _⟩ <;> rw [h]
  · exact ⟨10 * 2 ^ k, by ring⟩
  · exact ⟨300, by norm_num⟩

lemma delayMs_jitter_bound (k : Nat) (j : Int) (h1 : -20 ≤ j) (h2 : j ≤ 20) :
    80 * (baseDelayMs k : Int) ≤ 100 * delayMs k j ∧
      100 * delayMs k j ≤ 120 * (baseDelayMs k : Int) := by
  obtain ⟨m, hm⟩ := baseDelayMs_dvd k
  have hmInt : (baseDelayMs k : Int) = 100 * m := by
    rw [hm]
    push_cast
    ring
  have hm0 : (0 : Int) ≤ m := by
    have : (0 : Int) ≤ (baseDelayMs k : Int) := Int.natCast_nonneg _
    omega
  have hdel : delayMs k j = m * (100 + j) := by
    unfold delayMs
    rw [hmInt, mul_assoc]
    exact Int.mul_ediv_cancel_left _ (by norm_num)
  rw [hdel, hmInt]
  constructor <;> nlinarith [hm0, h1, h2]

/-- C6: reconnect failures follow capped exponential backoff with ±20%
jitter, and the tenth consecutive failure closes the link with one
`LinkLost` error.  For any run of consecutive failures from `Streaming`:
the scheduled delays are exactly `delayMs 0, delayMs 1, …` for the first
`min n 9` failures, where `baseDelayMs` starts at 1000 ms, doubles, and
is capped at 30000 ms, and each jittered delay lies within ±20% of its
base; fewer than 10 failures leave the link retrying (not `Closed`, no
error); 10 or more failures close the link with exactly one `LinkLost`
error; and a `Closed` link is absorbing, so the error is surfaced
exactly once and no further retry is scheduled. -/
theorem transcriptionLink_backoff_linklost (js : List Int) :
    baseDelayMs 0 = 1000 ∧
    (∀ k, baseDelayMs (k + 1) = min (2 * baseDelayMs k) 30000) ∧
    (∀ k, baseDelayMs k ≤ 30000) ∧
    (∀ k j, -20 ≤ j → j ≤ 20 →
      80 * (baseDelayMs k : Int) ≤ 100 * delayMs k j ∧
        100 * delayMs k j ≤ 120 * (baseDelayMs k : Int)) ∧
    (backoffRun streamingLink (js.map .fail)).delays =
      List.zipWith delayMs (List.range' 0 (min js.length (reconnectCap - 1))) js ∧
    (js.length ≤ reconnectCap - 1 →
      (backoffRun streamingLink (js.map .fail)).errors = [] ∧
        (backoffRun streamingLink (js.map .fail)).state ≠ ConnState.Closed) ∧
    (reconnectCap ≤ js.length →
      (backoffRun streamingLink (js.map .fail)).state = ConnState.Closed ∧
        (backoffRun streamingLink (js.map .fail)).errors = [.LinkLost]) ∧
    (∀ (l : BackoffLink) (es : List BackoffEvent),
      l.state = ConnState.Closed → backoffRun l es = l) := by
  have hbase1 : ∀ k, baseDelayMs (k + 1) = min (2 * baseDelayMs k) 30000 := by
    intro k
    unfold baseDelayMs
    rcases min_cases (1000 * 2 ^ k) 30000 with ⟨h, hle⟩ | ⟨h, hle⟩ <;> rw [h] <;>
      rw [pow_succ] <;>
      rcases min_cases (1000 * (2 ^ k * 2)) 30000 with ⟨h2, hle2⟩ | ⟨h2, hle2⟩ <;>
      rw [h2] <;> omega
  -- characterize the run itself
  have hrun : (backoffRun streamingLink (js.map .fail)) =
      (if js.length = 0 then streamingLink
       else if js.length ≤ reconnectCap - 1 then
         ⟨.Reconnecting, js.length,
           List.zipWith delayMs (List.range' 0 js.length) js, []⟩
       else
         ⟨.Closed, reconnectCap,
           List.zipWith delayMs (List.range' 0 (reconnectCap - 1)) js,
           [.LinkLost]⟩) := by
    cases js with
    | nil => rfl
    | cons j rest =>
      simp only [List.length_cons]
      rw [if_neg (by omega)]
      have hstep : backoffStep streamingLink (.fail j) =
          ⟨.Reconnecting, 1, [delayMs 0 j], []⟩ := by
        rfl
      simp only [backoffRun, List.map_cons, List.foldl_cons]
      rw [hstep]
      by_cases hsz : rest.length + 1 ≤ reconnectCap - 1
      · rw [if_pos hsz]
        rw [backoff_fails_small rest 1 [delayMs 0 j] [] (by omega) (by omega)]
        have hr : List.range' 0 (rest.length + 1) =
            0 :: List.range' 1 rest.length := by
          rw [List.range'_succ]
        rw [hr]
        simp only [List.zipWith_cons_cons]
        rw [Nat.add_comm 1 rest.length]
        rfl
      · rw [if_neg hsz]
        rw [backoff_fails_big rest 1 [delayMs 0 j] [] (by omega)
          (by unfold reconnectCap; omega) (by unfold reconnectCap at *; omega)]
        have h9 : reconnectCap - 1 = (reconnectCap - 1 - 1) + 1 := by
          unfold reconnectCap
          omega
        rw [h9, List.range'_succ]
        simp only [List.zipWith_cons_cons]
        rfl
  refine ⟨rfl, hbase1, ?_, delayMs_jitter_bound, ?_, ?_, ?_, ?_⟩
  · intro k
    unfold baseDelayMs
    exact min_le_right _ _
  · rw [hrun]
    by_cases h0 : js.length = 0
    · rw [if_pos h0]
      have hjs : js = [] := List.length_eq_zero.mp h0
      subst hjs
      rfl
    · rw [if_neg h0]
      by_cases hle : js.length ≤ reconnectCap - 1
      · rw [if_pos hle, min_eq_left hle]
      · rw [if_neg hle, min_eq_right (by omega)]
  · intro hle
    rw [hrun]
    by_cases h0 : js.length = 0
    · rw [if_pos h0]
      exact ⟨rfl, by simp [streamingLink]⟩
    · rw [if_neg h0, if_pos hle]
      exact ⟨rfl, by simp⟩
  · intro hge
    rw [hrun]
    rw [if_neg (by unfold reconnectCap at *; omega),
      if_neg (by unfold reconnectCap at *; omega)]
    exact ⟨rfl, rfl⟩
  · intro l es h
    exact backoffRun_closed es l h

theorem transcriptionLink_backoff_linklost_witness :
    (backoffRun streamingLink ([5, -10, 0].map .fail)).delays =
      List.zipWith delayMs (List.range' 0 (min 3 (reconnectCap - 1))) [5, -10, 0] ∧
    (backoffRun streamingLink ([5, -10, 0].map .fail)).errors = [] ∧
    (backoffRun streamingLink ([5, -10, 0].map .fail)).state ≠ ConnState.Closed ∧
    80 * (baseDelayMs 2 : Int) ≤ 100 * delayMs 2 20 ∧
    100 * delayMs 2 20 ≤ 120 * (baseDelayMs 2 : Int) ∧
    (backoffRun streamingLink
      ([0, 0, 0, 0, 0, 0, 0, 0, 0, 0, 0].map .fail)).state = ConnState.Closed ∧
    (backoffRun streamingLink
      ([0, 0, 0, 0, 0, 0, 0, 0, 0, 0, 0].map .fail)).errors = [.LinkLost] ∧
    backoffRun (backoffRun streamingLink
        ([0, 0, 0, 0, 0, 0, 0, 0, 0, 0, 0].map .fail))
        [.fail 0, .connected, .close] =
      backoffRun streamingLink ([0, 0, 0, 0, 0, 0, 0, 0, 0, 0, 0].map .fail) := by
  have h1 := transcriptionLink_backoff_linklost [5, -10, 0]
  have h2 := transcriptionLink_backoff_linklost [0, 0, 0, 0, 0, 0, 0, 0, 0, 0, 0]
  obtain ⟨he1, hs1⟩ := h1.2.2.2.2.2.1 (by decide)
  obtain ⟨hs2, he2⟩ := h2.2.2.2.2.2.2.1 (by decide)
  exact ⟨h1.2.2.2.2.1, he1, hs1, (h1.2.2.2.1 2 20 (by decide) (by decide)).1,
    (h1.2.2.2.1 2 20 (by decide) (by decide)).2, hs2, he2,
    h2.2.2.2.2.2.2.2 _ [.fail 0, .connected, .close] hs2⟩

/-! ## TriggerDetector (spec §4.4)

Modelled from the spec: no trigger-phrase matcher exists in src/, so
`scanTriggers` is modelled from §4.4: configured phrase matchers run
case-insensitively over the newly finalized text and emit one
TriggerEvent per match with its text offset, in the order the matches
appear; every configured match is emitted (no first-match-wins
precedence between overlapping phrases). -/

structure TriggerEvent where
  phrase : String
  offset : Nat
deriving DecidableEq

/-- lower-cased character view of a string (case-insensitive matching) -/
def lowerChars (s : String) : List Char := s.toList.map Char.toLower

/-- does `p` match in `text` at character offset `i`? -/
def matchesAt (text p : String) (i : Nat) : Bool :=
  (lowerChars p).isPrefixOf ((lowerChars text).drop i)

def scanTriggers (phrases : List String) (text : String) : List TriggerEvent :=
  (List.range text.length).flatMap fun i =>
    (phrases.filter fun p => matchesAt text p i).map fun p => ⟨p, i⟩

lemma mem_scanTriggers (phrases : List String) (text : String)
    (p : String) (i : Nat) :
    (⟨p, i⟩ : TriggerEvent) ∈ scanTriggers phrases text ↔
      p ∈ phrases ∧ i < text.length ∧
        lowerChars p <+: (lowerChars text).drop i := by
  unfold scanTriggers
  rw [List.mem_flatMap]
  constructor
  · rintro ⟨a, ha, hmem⟩
    simp only [List.mem_map, List.mem_filter] at hmem
    obtain ⟨q, ⟨hq, hmatch⟩, heq⟩ := hmem
    obtain ⟨rfl, rfl⟩ : q = p ∧ a = i := by
      constructor <;> cases heq <;> rfl
    simp only [List.mem_range] at ha
    exact ⟨hq, ha, List.isPrefixOf_iff_prefix.mp hmatch⟩
  · rintro ⟨hp, hi, hpre⟩
    refine ⟨i, List.mem_range.mpr hi, ?_⟩
    simp only [List.mem_map, List.mem_filter]
    exact ⟨p, ⟨hp, List.isPrefixOf_iff_prefix.mpr hpre⟩, rfl⟩

lemma scanTriggers_nodup (phrases : List String) (text : String)
    (h : phrases.Nodup) : (scanTriggers phrases text).Nodup := by
  unfold scanTriggers
  rw [List.nodup_flatMap]
  constructor
  · intro i _
    refine (h.filter _).map ?_
    intro a b hab
    cases hab
    rfl
  · refine List.Pairwise.imp ?_ (List.pairwise_lt_range text.length)
    intro i j hij
    intro e hei hej
    simp only [List.mem_map] at hei hej
    obtain ⟨_, _, rfl⟩ := hei
    obtain ⟨_, _, heq⟩ := hej
    cases heq
    omega

lemma scanTriggers_sorted (phrases : List String) (text : String) :
    List.Pairwise (· ≤ ·)
      ((scanTriggers phrases text).map TriggerEvent.offset) := by
  unfold scanTriggers
  have hgen : ∀ l : List Nat, List.Pairwise (· ≤ ·) l →
      List.Pairwise (· ≤ ·)
        ((l.flatMap fun i =>
          (phrases.filter fun p => matchesAt text p i).map
            fun p => (⟨p, i⟩ : TriggerEvent)).map TriggerEvent.offset) := by
    intro l
    induction l with
    | nil =>
      intro _
      simp
    | cons i rest ih =>
      intro hl
      obtain ⟨hhead, htail⟩ := List.pairwise_cons.mp hl
      simp only [List.flatMap_cons, List.map_append]
      rw [List.pairwise_append]
      refine ⟨?_, ih htail, ?_⟩
      · apply List.pairwise_of_forall_mem_list
        intro a ha b hb
        simp only [List.map_map, List.mem_map, Function.comp] at ha hb
        obtain ⟨_, _, rfl⟩ := ha
        obtain ⟨_, _, rfl⟩ := hb
        exact le_refl _
      · intro a ha b hb
        simp only [List.map_map, List.mem_map, Function.comp] at ha
        obtain ⟨_, _, rfl⟩ := ha
        simp only [List.mem_map, List.mem_flatMap] at hb
        obtain ⟨e, ⟨j, hj, hej⟩, rfl⟩ := hb
        obtain ⟨_, _, rfl⟩ := hej
        exact hhead j hj
  exact hgen (List.range text.length)
    ((List.pairwise_lt_range text.length).imp fun h => Nat.le_of_lt h)

/-- C7: over any newly finalized text, `scanTriggers` emits exactly one
TriggerEvent per occurrence of each configured phrase — an event
⟨p, i⟩ appears iff `p` is configured and matches (case-insensitively) at
offset `i` inside the text, the emitted list has no duplicates so each
occurrence yields exactly one event, and events are ordered by their
offset, i.e. in the order the matches appear in the text; overlapping
matches of distinct configured phrases (e.g. sharing a prefix) all fire,
as witnessed by two phrases firing at the same offset. -/
theorem trigger_scan_exact (phrases : List String) (text : String)
    (p : String) (i : Nat) (hnd : phrases.Nodup) :
    ((⟨p, i⟩ : TriggerEvent) ∈ scanTriggers phrases text ↔
      p ∈ phrases ∧ i < text.length ∧
        lowerChars p <+: (lowerChars text).drop i) ∧
    (scanTriggers phrases text).Nodup ∧
    ((⟨p, i⟩ : TriggerEvent) ∈ scanTriggers phrases text →
      (scanTriggers phrases text).count ⟨p, i⟩ = 1) ∧
    List.Pairwise (· ≤ ·)
      ((scanTriggers phrases text).map TriggerEvent.offset) ∧
    scanTriggers ["ACT", "ACTION"] "mark this [ACTION] item" =
      [⟨"ACT", 11⟩, ⟨"ACTION", 11⟩] ∧
    scanTriggers ["[ACTION]"] "lets mark this [ACTION] item" =
      [⟨"[ACTION]", 15⟩] := by
  refine ⟨mem_scanTriggers phrases text p i, scanTriggers_nodup phrases text hnd,
    ?_, scanTriggers_sorted phrases text, ?_, ?_⟩
  · intro hmem
    exact List.count_eq_one_of_mem (scanTriggers_nodup phrases text hnd) hmem
  · decide
  · decide

theorem trigger_scan_exact_witness :
    ((⟨"ACTION", 11⟩ : TriggerEvent) ∈
        scanTriggers ["ACT", "ACTION"] "mark this [ACTION] item" ↔
      "ACTION" ∈ ["ACT", "ACTION"] ∧
        11 < ("mark this [ACTION] item" : String).length ∧
        lowerChars "ACTION" <+:
          (lowerChars "mark this [ACTION] item").drop 11) ∧
    (scanTriggers ["ACT", "ACTION"] "mark this [ACTION] item").Nodup ∧
    (scanTriggers ["ACT", "ACTION"] "mark this [ACTION] item").count
      ⟨"ACTION", 11⟩ = 1 ∧
    List.Pairwise (· ≤ ·)
      ((scanTriggers ["ACT", "ACTION"] "mark this [ACTION] item").map
        TriggerEvent.offset) ∧
    scanTriggers ["ACT", "ACTION"] "mark this [ACTION] item" =
      [⟨"ACT", 11⟩, ⟨"ACTION", 11⟩] := by
  have h := trigger_scan_exact ["ACT", "ACTION"] "mark this [ACTION] item"
    "ACTION" 11 (by decide)
  exact ⟨h.1, h.2.1, h.2.2.1 (by decide), h.2.2.2.1, h.2.2.2.2.1⟩

/-! ## Calendar generation (src/unnamed/part_008 `generateCalendarDays`,
duplicated verbatim in src/unnamed/part_005)

Embedding of the JavaScript `Date` arithmetic the function uses:
`new Date(y, m, d)` first applies the legacy two-digit-year remapping
(a year argument between 0 and 99 becomes 1900 + year), then normalizes
an out-of-range month index into the year and an out-of-range
day-of-month by rolling into adjacent months (`d = 0` is the last day
of the previous month); `getDay()` is the day-of-week with
Sunday = 0. -/

structure CivilDate where
  year : Int
  /-- 0-based month index, as returned by `getMonth()` -/
  month : Nat
  /-- 1-based day of month, as returned by `getDate()` -/
  day : Nat
deriving DecidableEq

def isLeap (y : Int) : Bool :=
  (y % 4 == 0 && y % 100 != 0) || y % 400 == 0

def daysInMonth (y : Int) (m : Nat) : Nat :=
  if m = 1 then (if isLeap y then 29 else 28)
  else if m = 3 ∨ m = 5 ∨ m = 8 ∨ m = 10 then 30
  else 31

lemma daysInMonth_bounds (y : Int) (m : Nat) :
    28 ≤ daysInMonth y m ∧ daysInMonth y m ≤ 31 := by
  unfold daysInMonth
  split_ifs <;> omega

def rollForward (y : Int) (m : Nat) (d : Nat) : CivilDate :=
  if d ≤ daysInMonth y m then ⟨y, m, d⟩
  else
    rollForward (if m = 11 then y + 1 else y) (if m = 11 then 0 else m + 1)
      (d - daysInMonth y m)
termination_by d
decreasing_by
  have := (daysInMonth_bounds y m).1
  omega

def prevYM (y : Int) (m : Nat) : Int × Nat :=
  if m = 0 then (y - 1, 11) else (y, m - 1)

def nextYM (y : Int) (m : Nat) : Int × Nat :=
  if m = 11 then (y + 1, 0) else (y, m + 1)

def rollBack (y : Int) (m : Nat) (k : Nat) : CivilDate :=
  if k = 0 then ⟨y, m, 1⟩
  else if k ≤ daysInMonth (prevYM y m).1 (prevYM y m).2 then
    ⟨(prevYM y m).1, (prevYM y m).2,
      daysInMonth (prevYM y m).1 (prevYM y m).2 + 1 - k⟩
  else
    rollBack (prevYM y m).1 (prevYM y m).2
      (k - daysInMonth (prevYM y m).1 (prevYM y m).2)
termination_by k
decreasing_by
  have := (daysInMonth_bounds (prevYM y m).1 (prevYM y m).2).1
  omega

/-- the legacy two-digit-year remapping of the `Date(y, m, d)`
constructor: years 0 through 99 denote 1900 + year -/
def remapYear (y : Int) : Int :=
  if 0 ≤ y ∧ y ≤ 99 then y + 1900 else y

/-- `new Date(y, m, d)` for an arbitrary integer month index and day,
including the two-digit-year remapping of the year argument. -/
def mkDate (y m d : Int) : CivilDate :=
  if 1 ≤ d then rollForward (remapYear y + m / 12) ((m % 12).toNat) d.toNat
  else rollBack (remapYear y + m / 12) ((m % 12).toNat) (1 - d).toNat

/-- days since 1970-01-01 of a civil date (0-based month) -/
def daysFromCivil (y : Int) (m : Nat) (d : Nat) : Int :=
  let ys := if m ≤ 1 then y - 1 else y
  let era := (if 0 ≤ ys then ys else ys - 399) / 400
  let yoe := ys - era * 400
  let mp : Int := if 1 < m then (m : Int) - 2 else (m : Int) + 10
  let doy := (153 * mp + 2) / 5 + (d : Int) - 1
  let doe := yoe * 365 + yoe / 4 - yoe / 100 + doy
  era * 146097 + doe - 719468

/-- `Date.getDay()`: day of week, Sunday = 0 (1970-01-01 was a Thursday). -/
def dayOfWeek (dt : CivilDate) : Nat :=
  ((daysFromCivil dt.year dt.month dt.day + 4) % 7).toNat

/-- the integer list produced by `for (let i = a; i <= b; i++)` -/
def intRange (a b : Int) : List Int :=
  (List.range (b + 1 - a).toNat).map (fun k : Nat => a + (k : Int))

def generateCalendarDays (month : CivilDate) : List CivilDate :=
  let year := month.year
  let monthIndex : Int := month.month
  let firstDay := mkDate year monthIndex 1
  let lastDay := mkDate year (monthIndex + 1) 0
  let firstDayOfWeek : Nat := dayOfWeek firstDay
  let daysFromPrevMonth : Nat := firstDayOfWeek
  let totalDays : Int := 42
  let prevMonth := mkDate year monthIndex 0
  let prevMonthLastDay : Nat := prevMonth.day
  let prevDays :=
    (intRange ((prevMonthLastDay : Int) - (daysFromPrevMonth : Int) + 1)
      (prevMonthLastDay : Int)).map fun i => mkDate year (monthIndex - 1) i
  let currentMonthDays : Nat := lastDay.day
  let currDays :=
    (intRange 1 (currentMonthDays : Int)).map fun i => mkDate year monthIndex i
  let daysSoFar := prevDays ++ currDays
  let remainingDays : Int := totalDays - (daysSoFar.length : Int)
  let nextDays :=
    (intRange 1 remainingDays).map fun i => mkDate year (monthIndex + 1) i
  daysSoFar ++ nextDays

/-- the verbatim duplicate of `generateCalendarDays` that lives in the
home-page source file (src/unnamed/part_005). -/
def generateCalendarDays_p5 (month : CivilDate) : List CivilDate :=
  let year := month.year
  let monthIndex : Int := month.month
  let firstDay := mkDate year monthIndex 1
  let lastDay := mkDate year (monthIndex + 1) 0
  let firstDayOfWeek : Nat := dayOfWeek firstDay
  let daysFromPrevMonth : Nat := firstDayOfWeek
  let totalDays : Int := 42
  let prevMonth := mkDate year monthIndex 0
  let prevMonthLastDay : Nat := prevMonth.day
  let prevDays :=
    (intRange ((prevMonthLastDay : Int) - (daysFromPrevMonth : Int) + 1)
      (prevMonthLastDay : Int)).map fun i => mkDate year (monthIndex - 1) i
  let currentMonthDays : Nat := lastDay.day
  let currDays :=
    (intRange 1 (currentMonthDays : Int)).map fun i => mkDate year monthIndex i
  let daysSoFar := prevDays ++ currDays
  let remainingDays : Int := totalDays - (daysSoFar.length : Int)
  let nextDays :=
    (intRange 1 remainingDays).map fun i => mkDate year (monthIndex + 1) i
  daysSoFar ++ nextDays

/-- all days of month (y, m) in ascending order -/
def monthDays (y : Int) (m : Nat) : List CivilDate :=
  (List.range (daysInMonth y m)).map fun k => ⟨y, m, k + 1⟩

lemma dayOfWeek_lt (dt : CivilDate) : dayOfWeek dt < 7 := by
  unfold dayOfWeek
  have h1 := Int.emod_lt_of_pos (daysFromCivil dt.year dt.month dt.day + 4)
    (by norm_num : (0 : Int) < 7)
  have h2 := Int.emod_nonneg (daysFromCivil dt.year dt.month dt.day + 4)
    (by norm_num : (7 : Int) ≠ 0)
  omega

lemma natCast_div12 (m : Nat) (hm : m < 12) :
    ((m : Int)) / 12 = 0 ∧ ((m : Int)) % 12 = (m : Int) := by
  constructor
  · exact Int.ediv_eq_zero_of_lt (by positivity) (by exact_mod_cast hm)
  · exact Int.emod_eq_of_lt (by positivity) (by exact_mod_cast hm)

lemma rollForward_eq (y : Int) (m : Nat) (d : Nat) (h : d ≤ daysInMonth y m) :
    rollForward y m d = ⟨y, m, d⟩ := by
  unfold rollForward
  rw [if_pos h]

lemma rollBack_one (y : Int) (m : Nat) :
    rollBack y m 1 =
      ⟨(prevYM y m).1, (prevYM y m).2,
        daysInMonth (prevYM y m).1 (prevYM y m).2⟩ := by
  have hp := (daysInMonth_bounds (prevYM y m).1 (prevYM y m).2).1
  unfold rollBack
  rw [if_neg (by omega), if_pos (by omega)]
  have h : daysInMonth (prevYM y m).1 (prevYM y m).2 + 1 - 1 =
      daysInMonth (prevYM y m).1 (prevYM y m).2 := by omega
  rw [h]

lemma mkDate_self (y : Int) (m : Nat) (hm : m < 12) (i : Int)
    (h1 : 1 ≤ i) (h2 : i ≤ (daysInMonth (remapYear y) m : Int)) :
    mkDate y (m : Int) i = ⟨remapYear y, m, i.toNat⟩ := by
  unfold mkDate
  rw [if_pos h1, (natCast_div12 m hm).1, (natCast_div12 m hm).2, add_zero]
  have hmt : ((m : Int)).toNat = m := by omega
  rw [hmt]
  exact rollForward_eq (remapYear y) m i.toNat (by omega)

lemma mkDate_prev (y : Int) (m : Nat) (hm : m < 12) (i : Int)
    (h1 : 1 ≤ i)
    (h2 : i ≤ (daysInMonth (prevYM (remapYear y) m).1
      (prevYM (remapYear y) m).2 : Int)) :
    mkDate y ((m : Int) - 1) i =
      ⟨(prevYM (remapYear y) m).1, (prevYM (remapYear y) m).2, i.toNat⟩ := by
  cases m with
  | zero =>
    have hp : prevYM (remapYear y) 0 = (remapYear y - 1, 11) := by
      simp [prevYM]
    rw [hp] at h2 ⊢
    dsimp only at h2 ⊢
    unfold mkDate
    rw [if_pos h1]
    have hdiv : ((0 : Nat) : Int) - 1 = -1 := by norm_num
    rw [hdiv]
    have hd : (-1 : Int) / 12 = -1 := by decide
    have hmo : ((-1 : Int) % 12).toNat = 11 := by decide
    rw [hd, hmo]
    have hy : remapYear y + -1 = remapYear y - 1 := by ring
    rw [hy]
    exact rollForward_eq (remapYear y - 1) 11 i.toNat (by omega)
  | succ k =>
    have hk : k < 12 := by omega
    have hp : prevYM (remapYear y) (k + 1) = (remapYear y, k) := by
      simp [prevYM]
    rw [hp] at h2 ⊢
    dsimp only at h2 ⊢
    have hcast : ((k + 1 : Nat) : Int) - 1 = (k : Int) := by push_cast; ring
    rw [hcast]
    unfold mkDate
    rw [if_pos h1, (natCast_div12 k hk).1, (natCast_div12 k hk).2, add_zero]
    have hmt : ((k : Int)).toNat = k := by omega
    rw [hmt]
    exact rollForward_eq (remapYear y) k i.toNat (by omega)

lemma mkDate_next (y : Int) (m : Nat) (hm : m < 12) (i : Int)
    (h1 : 1 ≤ i)
    (h2 : i ≤ (daysInMonth (nextYM (remapYear y) m).1
      (nextYM (remapYear y) m).2 : Int)) :
    mkDate y ((m : Int) + 1) i =
      ⟨(nextYM (remapYear y) m).1, (nextYM (remapYear y) m).2, i.toNat⟩ := by
  by_cases h11 : m = 11
  · subst h11
    have hp : nextYM (remapYear y) 11 = (remapYear y + 1, 0) := by
      simp [nextYM]
    rw [hp] at h2 ⊢
    dsimp only at h2 ⊢
    unfold mkDate
    rw [if_pos h1]
    have hcast : ((11 : Nat) : Int) + 1 = 12 := by norm_num
    rw [hcast]
    have hd : (12 : Int) / 12 = 1 := by decide
    have hmo : ((12 : Int) % 12).toNat = 0 := by decide
    rw [hd, hmo]
    exact rollForward_eq (remapYear y + 1) 0 i.toNat (by omega)
  · have hk : m + 1 < 12 := by omega
    have hp : nextYM (remapYear y) m = (remapYear y, m + 1) := by
      simp [nextYM, h11]
    rw [hp] at h2 ⊢
    dsimp only at h2 ⊢
    have hcast : ((m : Nat) : Int) + 1 = ((m + 1 : Nat) : Int) := by push_cast; ring
    rw [hcast]
    unfold mkDate
    rw [if_pos h1, (natCast_div12 (m + 1) hk).1, (natCast_div12 (m + 1) hk).2,
      add_zero]
    have hmt : (((m + 1 : Nat) : Int)).toNat = m + 1 := by omega
    rw [hmt]
    exact rollForward_eq (remapYear y) (m + 1) i.toNat (by omega)

lemma mkDate_zero (y : Int) (m : Nat) (hm : m < 12) :
    mkDate y (m : Int) 0 =
      ⟨(prevYM (remapYear y) m).1, (prevYM (remapYear y) m).2,
        daysInMonth (prevYM (remapYear y) m).1 (prevYM (remapYear y) m).2⟩ := by
  unfold mkDate
  rw [if_neg (by omega), (natCast_div12 m hm).1, (natCast_div12 m hm).2, add_zero]
  have hmt : ((m : Int)).toNat = m := by omega
  rw [hmt]
  have h1 : ((1 : Int) - 0).toNat = 1 := by decide
  rw [h1]
  exact rollBack_one (remapYear y) m

lemma mkDate_next_zero (y : Int) (m : Nat) (hm : m < 12) :
    mkDate y ((m : Int) + 1) 0 =
      ⟨remapYear y, m, daysInMonth (remapYear y) m⟩ := by
  by_cases h11 : m = 11
  · subst h11
    unfold mkDate
    rw [if_neg (by omega)]
    have hcast : ((11 : Nat) : Int) + 1 = 12 := by norm_num
    rw [hcast]
    have hd : (12 : Int) / 12 = 1 := by decide
    have hmo : ((12 : Int) % 12).toNat = 0 := by decide
    rw [hd, hmo]
    have h1 : ((1 : Int) - 0).toNat = 1 := by decide
    rw [h1, rollBack_one (remapYear y + 1) 0]
    have hp : prevYM (remapYear y + 1) 0 = (remapYear y, 11) := by
      simp [prevYM]
    rw [hp]
  · have hk : m + 1 < 12 := by omega
    unfold mkDate
    rw [if_neg (by omega)]
    have hcast : ((m : Nat) : Int) + 1 = ((m + 1 : Nat) : Int) := by push_cast; ring
    rw [hcast, (natCast_div12 (m + 1) hk).1, (natCast_div12 (m + 1) hk).2, add_zero]
    have hmt : (((m + 1 : Nat) : Int)).toNat = m + 1 := by omega
    rw [hmt]
    have h1 : ((1 : Int) - 0).toNat = 1 := by decide
    rw [h1, rollBack_one (remapYear y) (m + 1)]
    have hp : prevYM (remapYear y) (m + 1) = (remapYear y, m) := by
      simp [prevYM]
    rw [hp]

lemma range_drop (j n : Nat) :
    (List.range n).drop j = (List.range (n - j)).map (fun k => j + k) := by
  apply List.ext_getElem
  · simp
  · intro k h1 h2
    simp

/-- For every valid input month, `generateCalendarDays` returns exactly
42 dates laid out as the calendar grid of the month
(remapYear year, month): the trailing days of the month before it (one
per weekday before its first day, per `getDay`), then every day of that
month in ascending order, then leading days of the month after it. -/
lemma generateCalendarDays_layout (month : CivilDate)
    (hm : month.month < 12) :
    (generateCalendarDays month).length = 42 ∧
    generateCalendarDays month =
      (monthDays (prevYM (remapYear month.year) month.month).1
          (prevYM (remapYear month.year) month.month).2).drop
        (daysInMonth (prevYM (remapYear month.year) month.month).1
            (prevYM (remapYear month.year) month.month).2 -
          dayOfWeek ⟨remapYear month.year, month.month, 1⟩) ++
      monthDays (remapYear month.year) month.month ++
      (monthDays (nextYM (remapYear month.year) month.month).1
          (nextYM (remapYear month.year) month.month).2).take
        (42 - dayOfWeek ⟨remapYear month.year, month.month, 1⟩ -
          daysInMonth (remapYear month.year) month.month) := by
  obtain ⟨y, m, d⟩ := month
  simp only at hm ⊢
  have hfdw7 : dayOfWeek ⟨remapYear y, m, 1⟩ < 7 := dayOfWeek_lt _
  obtain ⟨hdim28, hdim31⟩ := daysInMonth_bounds (remapYear y) m
  obtain ⟨hp28, hp31⟩ :=
    daysInMonth_bounds (prevYM (remapYear y) m).1 (prevYM (remapYear y) m).2
  obtain ⟨hn28, hn31⟩ :=
    daysInMonth_bounds (nextYM (remapYear y) m).1 (nextYM (remapYear y) m).2
  set fdw := dayOfWeek ⟨remapYear y, m, 1⟩ with hfdw_def
  set dim := daysInMonth (remapYear y) m with hdim_def
  set pdim := daysInMonth (prevYM (remapYear y) m).1 (prevYM (remapYear y) m).2
    with hpdim_def
  set ndim := daysInMonth (nextYM (remapYear y) m).1 (nextYM (remapYear y) m).2
    with hndim_def
  have h1 : mkDate y (m : Int) 1 = ⟨remapYear y, m, 1⟩ := by
    have := mkDate_self y m hm 1 (by omega) (by omega)
    simpa using this
  have h2 : mkDate y ((m : Int) + 1) 0 = ⟨remapYear y, m, dim⟩ :=
    mkDate_next_zero y m hm
  have h3 : mkDate y (m : Int) 0 =
      ⟨(prevYM (remapYear y) m).1, (prevYM (remapYear y) m).2, pdim⟩ :=
    mkDate_zero y m hm
  have hA : (intRange ((pdim : Int) - (fdw : Int) + 1) (pdim : Int)).map
        (fun i => mkDate y ((m : Int) - 1) i) =
      (monthDays (prevYM (remapYear y) m).1
        (prevYM (remapYear y) m).2).drop (pdim - fdw) := by
    apply List.ext_getElem
    · simp only [intRange, monthDays, List.length_map, List.length_range,
        List.length_drop]
      omega
    · intro i hi1 hi2
      have hifdw : i < fdw := by
        simp only [intRange, List.length_map, List.length_range] at hi1
        omega
      simp only [intRange, monthDays, List.getElem_map, List.getElem_range,
        List.getElem_drop]
      rw [mkDate_prev y m hm ((pdim : Int) - (fdw : Int) + 1 + (i : Int))
        (by omega) (by omega)]
      simp only [CivilDate.mk.injEq, true_and]
      omega
  have hB : (intRange 1 (dim : Int)).map (fun i => mkDate y (m : Int) i) =
      monthDays (remapYear y) m := by
    apply List.ext_getElem
    · simp only [intRange, monthDays, List.length_map, List.length_range]
      omega
    · intro i hi1 hi2
      have hidim : i < dim := by
        simp only [monthDays, List.length_map, List.length_range] at hi2
        omega
      simp only [intRange, monthDays, List.getElem_map, List.getElem_range]
      rw [mkDate_self y m hm (1 + (i : Int)) (by omega) (by omega)]
      simp only [CivilDate.mk.injEq, true_and]
      omega
  have hC : (intRange 1 ((42 - fdw - dim : Nat) : Int)).map
        (fun i => mkDate y ((m : Int) + 1) i) =
      (monthDays (nextYM (remapYear y) m).1
        (nextYM (remapYear y) m).2).take (42 - fdw - dim) := by
    apply List.ext_getElem
    · simp only [intRange, monthDays, List.length_map, List.length_range,
        List.length_take]
      omega
    · intro i hi1 hi2
      have hirem : i < 42 - fdw - dim := by
        simp only [intRange, List.length_map, List.length_range] at hi1
        omega
      simp only [intRange, monthDays, List.getElem_map, List.getElem_range,
        List.getElem_take]
      rw [mkDate_next y m hm (1 + (i : Int)) (by omega) (by omega)]
      simp only [CivilDate.mk.injEq, true_and]
      omega
  have hmain : generateCalendarDays ⟨y, m, d⟩ =
      (monthDays (prevYM (remapYear y) m).1
        (prevYM (remapYear y) m).2).drop (pdim - fdw) ++
        monthDays (remapYear y) m ++
        (monthDays (nextYM (remapYear y) m).1
          (nextYM (remapYear y) m).2).take (42 - fdw - dim) := by
    simp only [generateCalendarDays, h1, h2, h3]
    rw [hA, hB]
    have hlenA : ((monthDays (prevYM (remapYear y) m).1
        (prevYM (remapYear y) m).2).drop (pdim - fdw)).length = fdw := by
      simp only [monthDays, List.length_drop, List.length_map, List.length_range]
      omega
    have hlenB : (monthDays (remapYear y) m).length = dim := by
      simp only [monthDays, List.length_map, List.length_range]
    rw [List.length_append, hlenA, hlenB]
    have hcast : (42 : Int) - ((fdw + dim : Nat) : Int) =
        ((42 - fdw - dim : Nat) : Int) := by
      omega
    rw [hcast, hC]
  refine ⟨?_, hmain⟩
  rw [hmain]
  simp only [List.length_append, List.length_drop, List.length_take,
    monthDays, List.length_map, List.length_range]
  omega

/-- C8 (amended): for every valid input month, `generateCalendarDays`
returns exactly 42 dates laid out as the calendar grid of the month
(remapYear year, month) — trailing days of the month before it (one per
weekday before its first day, per `getDay`), then every day of that
month ascending, then leading days of the month after it — where
`remapYear` is the two-digit-year remapping of the `Date` constructor
and is the identity on every year outside 0..99 (so for those months
the grid is exactly that of the given month); and the duplicated
implementation in the home-page file is extensionally equal to it. -/
theorem generateCalendarDays_spec (month : CivilDate)
    (hm : month.month < 12) :
    (generateCalendarDays month).length = 42 ∧
    generateCalendarDays month =
      (monthDays (prevYM (remapYear month.year) month.month).1
          (prevYM (remapYear month.year) month.month).2).drop
        (daysInMonth (prevYM (remapYear month.year) month.month).1
            (prevYM (remapYear month.year) month.month).2 -
          dayOfWeek ⟨remapYear month.year, month.month, 1⟩) ++
      monthDays (remapYear month.year) month.month ++
      (monthDays (nextYM (remapYear month.year) month.month).1
          (nextYM (remapYear month.year) month.month).2).take
        (42 - dayOfWeek ⟨remapYear month.year, month.month, 1⟩ -
          daysInMonth (remapYear month.year) month.month) ∧
    (¬ (0 ≤ month.year ∧ month.year ≤ 99) →
      remapYear month.year = month.year) ∧
    (∀ mo : CivilDate, generateCalendarDays_p5 mo = generateCalendarDays mo) := by
  obtain ⟨hlen, heq⟩ := generateCalendarDays_layout month hm
  exact ⟨hlen, heq, fun hy => by rw [remapYear, if_neg hy], fun mo => rfl⟩

theorem generateCalendarDays_spec_witness :
    (generateCalendarDays ⟨2025, 2, 4⟩).length = 42 ∧
    generateCalendarDays ⟨2025, 2, 4⟩ =
      (monthDays (prevYM (remapYear 2025) 2).1
          (prevYM (remapYear 2025) 2).2).drop
        (daysInMonth (prevYM (remapYear 2025) 2).1
            (prevYM (remapYear 2025) 2).2 -
          dayOfWeek ⟨remapYear 2025, 2, 1⟩) ++
      monthDays (remapYear 2025) 2 ++
      (monthDays (nextYM (remapYear 2025) 2).1
          (nextYM (remapYear 2025) 2).2).take
        (42 - dayOfWeek ⟨remapYear 2025, 2, 1⟩ -
          daysInMonth (remapYear 2025) 2) ∧
    remapYear 2025 = 2025 ∧
    generateCalendarDays_p5 ⟨2025, 2, 4⟩ = generateCalendarDays ⟨2025, 2, 4⟩ := by
  have h := generateCalendarDays_spec ⟨2025, 2, 4⟩ (by decide)
  exact ⟨h.1, h.2.1, h.2.2.1 (by decide), h.2.2.2 ⟨2025, 2, 4⟩⟩

/-- C8 counterexample to the unamended claim: on an input month whose
`getFullYear()` is 0 (February of year 0), the source remaps every
`new Date(0, …)` call to 1900, so the returned grid is that of February
1900 — it is not the claimed layout around month (0, 1), and in fact no
returned date lies in year 0 at all (every one lies in 1900). -/
theorem generateCalendarDays_two_digit_year_cex :
    generateCalendarDays ⟨0, 1, 1⟩ ≠
      (monthDays (prevYM 0 1).1 (prevYM 0 1).2).drop
        (daysInMonth (prevYM 0 1).1 (prevYM 0 1).2 - dayOfWeek ⟨0, 1, 1⟩) ++
      monthDays 0 1 ++
      (monthDays (nextYM 0 1).1 (nextYM 0 1).2).take
        (42 - dayOfWeek ⟨0, 1, 1⟩ - daysInMonth 0 1) ∧
    ((generateCalendarDays ⟨0, 1, 1⟩).map CivilDate.year).contains 0 = false ∧
    (generateCalendarDays ⟨0, 1, 1⟩).map CivilDate.year =
      List.replicate 42 1900 := by
  have h := generateCalendarDays_layout ⟨0, 1, 1⟩ (by decide)
  refine ⟨?_, ?_, ?_⟩
  · rw [h.2]
    decide
  · rw [h.2]
    decide
  · rw [h.2]
    decide

/-! ## Curiosity engine `submitAnswer`
(src/meetng/web/powerplay-meeting-assistant/components/curiosity-engine.tsx)

Embedded from the source: `submitAnswer(id)` returns early when the
current answer is blank after trimming; otherwise it maps over the
questions, marking exactly the ones whose id matches as answered with
the current answer recorded, and clears the current answer. -/

structure Question where
  id : Int
  text : String
  answered : Option Bool
  answer : Option String
deriving DecidableEq

/-- JavaScript's `String.prototype.trim`: strip whitespace at both ends. -/
def jsTrim (s : String) : String :=
  ⟨((s.data.dropWhile Char.isWhitespace).reverse.dropWhile
      Char.isWhitespace).reverse⟩

def submitAnswer (questions : List Question) (currentAnswer : String)
    (qid : Int) : List Question × String :=
  if jsTrim currentAnswer = "" then (questions, currentAnswer)
  else
    (questions.map fun q =>
      if q.id = qid then
        { q with answered := some true, answer := some currentAnswer }
      else q,
     "")

/-- C9: with a whitespace-only current answer, `submitAnswer` leaves the
questions list (and the answer box) entirely unchanged; with a non-blank
answer it updates exactly the questions whose id equals the argument
(setting answered and recording the answer) and leaves every other
question and the list's length and order unchanged. -/
theorem submitAnswer_frame (qs : List Question) (ca : String) (qid : Int) :
    (jsTrim ca = "" → submitAnswer qs ca qid = (qs, ca)) ∧
    (jsTrim ca ≠ "" →
      (submitAnswer qs ca qid).1.length = qs.length ∧
      List.Forall₂ (fun q r =>
          (q.id ≠ qid → r = q) ∧
          (q.id = qid →
            r = { q with answered := some true, answer := some ca }))
        qs (submitAnswer qs ca qid).1) := by
  constructor
  · intro h
    simp only [submitAnswer, if_pos h]
  · intro h
    simp only [submitAnswer, if_neg h]
    refine ⟨by simp, ?_⟩
    induction qs with
    | nil => constructor
    | cons q rest ih =>
      simp only [List.map_cons]
      constructor
      · by_cases hq : q.id = qid
        · rw [if_pos hq]
          exact ⟨fun hne => absurd hq hne, fun _ => rfl⟩
        · rw [if_neg hq]
          exact ⟨fun _ => rfl, fun heq => absurd heq hq⟩
      · exact ih

theorem submitAnswer_frame_witness :
    submitAnswer [⟨1, "q1", none, none⟩, ⟨2, "q2", none, none⟩] "   " 1 =
      ([⟨1, "q1", none, none⟩, ⟨2, "q2", none, none⟩], "   ") ∧
    (submitAnswer [⟨1, "q1", none, none⟩, ⟨2, "q2", none, none⟩] "yes" 1).1.length =
      ([⟨1, "q1", none, none⟩, ⟨2, "q2", none, none⟩] : List Question).length ∧
    List.Forall₂ (fun q r =>
        (q.id ≠ 1 → r = q) ∧
        (q.id = 1 → r = { q with answered := some true, answer := some "yes" }))
      [⟨1, "q1", none, none⟩, ⟨2, "q2", none, none⟩]
      (submitAnswer [⟨1, "q1", none, none⟩, ⟨2, "q2", none, none⟩] "yes" 1).1 := by
  have h1 := submitAnswer_frame [⟨1, "q1", none, none⟩, ⟨2, "q2", none, none⟩] "   " 1
  have h2 := submitAnswer_frame [⟨1, "q1", none, none⟩, ⟨2, "q2", none, none⟩] "yes" 1
  obtain ⟨hl, hf⟩ := h2.2 (by decide)
  exact ⟨h1.1 (by decide), hl, hf⟩

/-! ## Library file-list search filter
(src/unnamed/part_008 `FileListView.filteredRecordings`)

Embedded from the source: an empty query keeps everything; a query
containing `*` keeps a recording iff every nonempty `*`-separated
fragment occurs in the title case-SENSITIVELY; otherwise a query
containing `-` runs include/exclude term matching; otherwise the whole
query is matched case-insensitively. -/

def charsContain : List Char → List Char → Bool
  | [], s => s.isPrefixOf []
  | a :: t, s => s.isPrefixOf (a :: t) || charsContain t s

lemma charsContain_iff (l s : List Char) : charsContain l s = true ↔ s <:+: l := by
  induction l with
  | nil =>
    simp [charsContain, List.isPrefixOf_iff_prefix]
  | cons a t ih =>
    simp only [charsContain, Bool.or_eq_true, List.isPrefixOf_iff_prefix, ih]
    rw [List.infix_cons_iff]

/-- JavaScript's `String.prototype.toLowerCase` (character-wise) -/
def jsToLower (s : String) : String := ⟨s.data.map Char.toLower⟩

/-- JavaScript's `String.prototype.includes` -/
def strIncludes (s sub : String) : Bool := charsContain s.data sub.data

/-- JavaScript's `String.prototype.split` with a one-character separator -/
def splitOnChar (c : Char) : List Char → List String
  | [] => [""]
  | a :: t =>
    if a = c then "" :: splitOnChar c t
    else
      match splitOnChar c t with
      | [] => [⟨[a]⟩]
      | s :: ss => (⟨a :: s.data⟩) :: ss

/-- JavaScript's `String.prototype.startsWith` with a one-character
argument -/
def strStartsWith (s : String) (c : Char) : Bool :=
  match s.data with
  | [] => false
  | a :: _ => a = c

/-- JavaScript's `String.prototype.substring(1)` -/
def strDropOne (s : String) : String := ⟨s.data.drop 1⟩

def keepsRecording (searchQuery title : String) : Bool :=
  if searchQuery = "" then true
  else if searchQuery.data.contains '*' then
    ((splitOnChar '*' searchQuery.data).filter fun t => t ≠ "").all
      fun term => strIncludes title term
  else if searchQuery.data.contains '-' then
    let terms := splitOnChar ' ' searchQuery.data
    let includedTerms := terms.filter fun t => ¬ strStartsWith t '-'
    let excludedTerms := (terms.filter fun t => strStartsWith t '-').map
      strDropOne
    let includeMatch := includedTerms.isEmpty ||
      includedTerms.any fun t => strIncludes (jsToLower title) (jsToLower t)
    let excludeMatch :=
      excludedTerms.any fun t => strIncludes (jsToLower title) (jsToLower t)
    includeMatch && !excludeMatch
  else strIncludes (jsToLower title) (jsToLower searchQuery)

/-- C10: a query containing `*` keeps a recording iff every nonempty
`*`-separated fragment occurs in the title as a case-sensitive
substring, while a query containing neither `*` nor `-` keeps a
recording iff the whole query occurs case-insensitively — so the `*`
branch, unlike the plain branch, is case-sensitive, as the concrete
conjuncts show ("Meet" matches "Team meeting" only in the plain
branch). -/
theorem library_filter_semantics (q t : String) :
    (q.data.contains '*' = true →
      (keepsRecording q t = true ↔
        ∀ term ∈ splitOnChar '*' q.data, term ≠ "" →
          term.data <:+: t.data)) ∧
    (q.data.contains '*' = false → q.data.contains '-' = false →
      (keepsRecording q t = true ↔
        (jsToLower q).data <:+: (jsToLower t).data)) ∧
    keepsRecording "Meet*" "Team meeting" = false ∧
    keepsRecording "Meet" "Team meeting" = true := by
  refine ⟨?_, ?_, by decide, by decide⟩
  · intro hstar
    have hne : ¬ (q = "") := by
      intro h
      subst h
      exact absurd hstar (by decide)
    unfold keepsRecording
    rw [if_neg hne, if_pos hstar, List.all_eq_true]
    constructor
    · intro h term hmem hne'
      have := h term (List.mem_filter.mpr ⟨hmem, by simp [hne']⟩)
      rwa [strIncludes, charsContain_iff] at this
    · intro h x hx
      obtain ⟨hmem, hxne⟩ := List.mem_filter.mp hx
      rw [strIncludes, charsContain_iff]
      exact h x hmem (by simpa using hxne)
  · intro h1 h2
    by_cases hq : q = ""
    · subst hq
      unfold keepsRecording
      rw [if_pos rfl]
      simp [jsToLower]
    · unfold keepsRecording
      rw [if_neg hq, if_neg (by rw [h1]; exact Bool.false_ne_true),
        if_neg (by rw [h2]; exact Bool.false_ne_true)]
      rw [strIncludes, charsContain_iff]

theorem library_filter_semantics_witness :
    keepsRecording "mee*ting" "Team meeting" = true ∧
    keepsRecording "Meet" "Team meeting" = true ∧
    keepsRecording "Meet*" "Team meeting" = false := by
  have h1 := library_filter_semantics "mee*ting" "Team meeting"
  have h2 := library_filter_semantics "Meet" "Team meeting"
  exact ⟨(h1.1 (by decide)).mpr (by decide),
    (h2.2.1 (by decide) (by decide)).mpr (by decide), h1.2.2.1⟩
